import Mathlib

set_option maxHeartbeats 1000000

/-!
Verification development for the Anki fork's scheduler core and editor helpers.

Part 1 (`AnkiEditor`) embeds `wrappedExceptForWhitespace` from
`qt/ts/src/editor.ts`:

    function wrappedExceptForWhitespace(text, front, back) {
        const match = text.match(/^(\s*)([^]*?)(\s*)$/);
        return match[1] + front + match[2] + back + match[3];
    }

Strings are modelled as `List Char`.  The regex `^(\s*)([^]*?)(\s*)$` is
embedded by its backtracking semantics: group 1 is greedy `\s*` whose
continuation `([^]*?)(\s*)$` always succeeds (because `[^]` matches any
character), so group 1 is exactly the maximal whitespace run at the start,
i.e. `takeWhile`; group 2 is lazy, so the engine first tries the empty
match and tests whether the continuation `(\s*)$` accepts the whole
remainder (i.e. the remainder is all whitespace), and otherwise moves one
character into group 2 and retries — this is `lazyMid` below.

Part 2 (`AnkiSched`) models the scheduler core.  The repository ships the
scheduler only as prose (`documentation/scheduler.md`); no executable
scheduler code is present in the sources, so the definitions there are
modelled from the specification text.
-/

namespace AnkiEditor

/-- JavaScript `\s` character class (the set matched by `\s` in ECMAScript
regular expressions): tab, LF, VT, FF, CR, space, NBSP, Ogham space mark,
the U+2000–U+200A range, LS, PS, NNBSP, MMSP, ideographic space and BOM. -/
def jsWs (c : Char) : Bool :=
  c == ' ' || c == '\t' || c == '\n' || c == '\r' ||
  c.toNat == 11 || c.toNat == 12 ||
  c.toNat == 0xa0 || c.toNat == 0x1680 ||
  (Nat.ble 0x2000 c.toNat && Nat.ble c.toNat 0x200a) ||
  c.toNat == 0x2028 || c.toNat == 0x2029 ||
  c.toNat == 0x202f || c.toNat == 0x205f ||
  c.toNat == 0x3000 || c.toNat == 0xfeff

/-- Lazy-middle split implementing `([^]*?)(\s*)$` on the part of the
input that follows the greedy `^(\s*)`: returns (group 2, group 3).
At each position the lazy group first tries to stop, which succeeds
exactly when the whole remainder is whitespace; otherwise it consumes
one character and continues. -/
def lazyMid (ws : Char → Bool) : List Char → List Char × List Char
  | [] => ([], [])
  | c :: cs =>
    if (c :: cs).all ws then ([], c :: cs)
    else
      let p := lazyMid ws cs
      (c :: p.1, p.2)

/-- Embedding of `wrappedExceptForWhitespace` from `qt/ts/src/editor.ts`:
`match[1] + front + match[2] + back + match[3]` for the match of
`^(\s*)([^]*?)(\s*)$` against `text`. -/
def wrappedExceptForWhitespace (text front back : List Char) : List Char :=
  let lead := text.takeWhile jsWs
  let rest := text.dropWhile jsWs
  let p := lazyMid jsWs rest
  lead ++ front ++ p.1 ++ back ++ p.2

theorem takeWhile_all_ws (ws : Char → Bool) (l : List Char) :
    (l.takeWhile ws).all ws = true := by
  induction l with
  | nil => rfl
  | cons c cs ih =>
    by_cases h : ws c
    · simp [List.takeWhile_cons, h, ih]
    · simp [List.takeWhile_cons, h]

theorem dropWhile_head_not_ws (ws : Char → Bool) (l : List Char) (c : Char)
    (h : (l.dropWhile ws).head? = some c) : ws c = false := by
  induction l with
  | nil => simp [List.dropWhile] at h
  | cons x xs ih =>
    by_cases hx : ws x
    · rw [List.dropWhile_cons_of_pos hx] at h
      exact ih h
    · rw [List.dropWhile_cons_of_neg hx] at h
      simp only [List.head?_cons, Option.some.injEq] at h
      subst h
      exact Bool.not_eq_true _ |>.mp hx

theorem lazyMid_append (ws : Char → Bool) (l : List Char) :
    (lazyMid ws l).1 ++ (lazyMid ws l).2 = l := by
  induction l with
  | nil => rfl
  | cons c cs ih =>
    by_cases h : (c :: cs).all ws
    · simp [lazyMid, h]
    · simp [lazyMid, h, ih]

theorem lazyMid_trail_all (ws : Char → Bool) (l : List Char) :
    (lazyMid ws l).2.all ws = true := by
  induction l with
  | nil => rfl
  | cons c cs ih =>
    by_cases h : (c :: cs).all ws
    · simp [lazyMid, h]
    · simpa [lazyMid, h] using ih

theorem lazyMid_mid_nil (ws : Char → Bool) (l : List Char)
    (h : (lazyMid ws l).1 = []) : l.all ws = true := by
  induction l with
  | nil => rfl
  | cons c cs _ =>
    by_cases hall : (c :: cs).all ws
    · exact hall
    · simp [lazyMid, hall] at h

theorem lazyMid_mid_last (ws : Char → Bool) (l : List Char) (c : Char)
    (h : (lazyMid ws l).1.getLast? = some c) : ws c = false := by
  induction l with
  | nil => simp [lazyMid] at h
  | cons x xs ih =>
    by_cases hall : (x :: xs).all ws
    · simp [lazyMid, hall] at h
    · simp only [lazyMid, hall] at h
      rw [if_neg (by simp [hall])] at h
      cases hm : (lazyMid ws xs).1 with
      | nil =>
        rw [hm] at h
        simp only [List.getLast?_singleton, Option.some.injEq] at h
        subst h
        have hx := lazyMid_mid_nil ws xs hm
        simp only [List.all_cons, hx, Bool.and_true] at hall
        exact Bool.not_eq_true _ |>.mp hall
      | cons y ys =>
        rw [hm, List.getLast?_cons_cons] at h
        rw [hm] at ih
        exact ih h

/-- C10: for every `text`, `front`, `back`, `wrappedExceptForWhitespace`
returns `lead ++ front ++ mid ++ back ++ trail` where
`text = lead ++ mid ++ trail`, `lead` is the maximal whitespace run at the
start of `text`, `trail` is the maximal whitespace run at the end of the
remainder, and `mid` is the trimmed core (which is empty exactly when
`text` is all whitespace, in which case the whole of `text` ends up in
`lead`); so the leading and trailing whitespace of `text` is preserved
outside the inserted wrappers. -/
theorem c10_wrapped_preserves_whitespace (text front back : List Char) :
    ∃ lead mid trail : List Char,
      text = lead ++ mid ++ trail ∧
      wrappedExceptForWhitespace text front back =
        lead ++ front ++ mid ++ back ++ trail ∧
      lead.all jsWs = true ∧
      trail.all jsWs = true ∧
      (∀ c, mid.head? = some c → jsWs c = false) ∧
      (∀ c, mid.getLast? = some c → jsWs c = false) ∧
      (mid = [] → trail = [] ∧ lead = text) := by
  refine ⟨text.takeWhile jsWs, (lazyMid jsWs (text.dropWhile jsWs)).1,
    (lazyMid jsWs (text.dropWhile jsWs)).2, ?_, ?_, ?_, ?_, ?_, ?_, ?_⟩
  · rw [List.append_assoc, lazyMid_append, List.takeWhile_append_dropWhile]
  · rfl
  · exact takeWhile_all_ws jsWs text
  · exact lazyMid_trail_all jsWs (text.dropWhile jsWs)
  · intro c hc
    apply dropWhile_head_not_ws jsWs text c
    have hsplit := lazyMid_append jsWs (text.dropWhile jsWs)
    cases hm : (lazyMid jsWs (text.dropWhile jsWs)).1 with
    | nil => rw [hm] at hc; simp at hc
    | cons y ys =>
      rw [hm] at hc
      simp only [List.head?_cons, Option.some.injEq] at hc
      subst hc
      rw [hm] at hsplit
      rw [← hsplit]
      rfl
  · exact lazyMid_mid_last jsWs (text.dropWhile jsWs)
  · intro hm
    have hsplit := lazyMid_append jsWs (text.dropWhile jsWs)
    rw [hm, List.nil_append] at hsplit
    have htrail : (lazyMid jsWs (text.dropWhile jsWs)).2 = [] := by
      cases ht : (lazyMid jsWs (text.dropWhile jsWs)).2 with
      | nil => rfl
      | cons y ys =>
        have hy : jsWs y = false := by
          apply dropWhile_head_not_ws jsWs text y
          rw [← hsplit, ht]
          rfl
        have hall := lazyMid_trail_all jsWs (text.dropWhile jsWs)
        rw [ht] at hall
        simp [hy] at hall
    constructor
    · exact htrail
    · have hdrop : text.dropWhile jsWs = [] := by
        rw [← hsplit, htrail]
      conv_rhs => rw [← List.takeWhile_append_dropWhile jsWs text]
      rw [hdrop, List.append_nil]

end AnkiEditor

namespace AnkiSched

/-- Modelled from the spec: the deck hierarchy (`deckHierarchy()` of the
storage collaborator) with each deck's configured daily limit for one
limit kind, its "already taken today" counter, and its raw item count of
that kind.  The scheduler itself ships only as prose documentation
(`documentation/scheduler.md`), so this forest is built from the spec's
data model (§3 Deck).  Encoded first-child/next-sibling: `node lim taken
raw kids sib` is a deck followed by its later siblings; `nil` ends a
sibling list.  `lim = none` means no configured limit (unlimited). -/
inductive DeckF : Type where
  | nil : DeckF
  | node (lim : Option Nat) (taken : Nat) (raw : Nat) (kids : DeckF) (sib : DeckF) : DeckF
deriving DecidableEq

/-- A deck's own remaining limit: configured limit minus the "already
taken today" counter (clamped at zero by Nat subtraction); `none` when
the deck is unlimited. -/
def remainingOf (lim : Option Nat) (taken : Nat) : Option Nat :=
  lim.map (fun l => l - taken)

/-- Minimum of two optional limits, where `none` acts as "unlimited". -/
def minO : Option Nat → Option Nat → Option Nat
  | none, b => b
  | some a, none => some a
  | some a, some b => some (min a b)

/-- Order on optional limits, where `none` is the top ("unlimited"). -/
def leO : Option Nat → Option Nat → Prop
  | _, none => True
  | none, some _ => False
  | some a, some b => a ≤ b

instance : ∀ a b : Option Nat, Decidable (leO a b)
  | none, none => .isTrue trivial
  | some _, none => .isTrue trivial
  | none, some _ => .isFalse fun h => h
  | some a, some b => inferInstanceAs (Decidable (a ≤ b))

/-- Modelled from the spec: `DeckLimitPropagator` (§4.1), restricted to the
value it computes at one addressed deck.  A path `i :: rest` addresses the
`i`-th root of the forest and then descends by `rest`; `effAt parentEff f
path` returns the addressed deck's effective remaining limit
`minO (own remaining limit) (parent's effective limit)`, computed top-down,
with `parentEff = none` at the roots (so a root's effective limit is its
own remaining limit). -/
def effAt : Option Nat → DeckF → List Nat → Option (Option Nat)
  | _, .nil, _ => none
  | _, .node _ _ _ _ _, [] => none
  | p, .node lim tk _ kids sib, i :: rest =>
    match i with
    | 0 =>
      match rest with
      | [] => some (minO (remainingOf lim tk) p)
      | _ :: _ => effAt (minO (remainingOf lim tk) p) kids rest
    | j + 1 => effAt p sib (j :: rest)

/-- The addressed deck's own remaining limit, same addressing as `effAt`. -/
def ownAt : DeckF → List Nat → Option (Option Nat)
  | .nil, _ => none
  | .node _ _ _ _ _, [] => none
  | .node lim tk _ kids sib, i :: rest =>
    match i with
    | 0 =>
      match rest with
      | [] => some (remainingOf lim tk)
      | _ :: _ => ownAt kids rest
    | j + 1 => ownAt sib (j :: rest)

theorem leO_refl (a : Option Nat) : leO a a := by
  cases a <;> simp [leO]

theorem leO_trans {a b c : Option Nat} (h1 : leO a b) (h2 : leO b c) : leO a c := by
  cases a <;> cases b <;> cases c <;> simp_all [leO] <;> omega

theorem leO_minO_left (a b : Option Nat) : leO (minO a b) a := by
  cases a <;> cases b <;> simp [minO, leO]

theorem leO_minO_right (a b : Option Nat) : leO (minO a b) b := by
  cases a <;> cases b <;> simp [minO, leO]

theorem minO_none (a : Option Nat) : minO a none = a := by
  cases a <;> rfl

/-- The effective limit computed below a parent context `p` never exceeds `p`. -/
theorem effAt_le_parent (f : DeckF) :
    ∀ (p : Option Nat) (path : List Nat) (e : Option Nat),
      effAt p f path = some e → leO e p := by
  induction f with
  | nil => intro p path e h; simp [effAt] at h
  | node lim tk raw kids sib ihk ihs =>
    intro p path e h
    match path with
    | [] => simp [effAt] at h
    | 0 :: rest =>
      match rest with
      | [] =>
        simp only [effAt, Option.some.injEq] at h
        subst h
        exact leO_minO_right _ _
      | r :: rr =>
        simp only [effAt] at h
        exact leO_trans (ihk _ _ _ h) (leO_minO_right _ _)
    | (j + 1) :: rest =>
      simp only [effAt] at h
      exact ihs _ _ _ h

/-- The effective limit at a deck never exceeds the deck's own remaining
limit. -/
theorem effAt_le_own (f : DeckF) :
    ∀ (p : Option Nat) (path : List Nat) (e : Option Nat),
      effAt p f path = some e → ∃ o, ownAt f path = some o ∧ leO e o := by
  induction f with
  | nil => intro p path e h; simp [effAt] at h
  | node lim tk raw kids sib ihk ihs =>
    intro p path e h
    match path with
    | [] => simp [effAt] at h
    | 0 :: rest =>
      match rest with
      | [] =>
        simp only [effAt, Option.some.injEq] at h
        subst h
        exact ⟨remainingOf lim tk, rfl, leO_minO_left _ _⟩
      | r :: rr =>
        simp only [effAt] at h
        exact ihk _ _ _ h
    | (j + 1) :: rest =>
      simp only [effAt] at h
      exact ihs _ _ _ h

/-- Navigating an address that extends a strict, nonempty ancestor address
factors through the ancestor: the ancestor's effective limit becomes the
parent context for the remaining descent. -/
theorem effAt_append (f : DeckF) :
    ∀ (p : Option Nat) (anc suf : List Nat) (ea : Option Nat),
      anc ≠ [] → suf ≠ [] → effAt p f anc = some ea →
      ∃ kid, effAt p f (anc ++ suf) = effAt ea kid suf := by
  induction f with
  | nil => intro p anc suf ea _ _ h; simp [effAt] at h
  | node lim tk raw kids sib ihk ihs =>
    intro p anc suf ea hanc hsuf h
    match anc with
    | [] => exact absurd rfl hanc
    | 0 :: rest =>
      match rest with
      | [] =>
        simp only [effAt, Option.some.injEq] at h
        subst h
        match suf, hsuf with
        | s :: ss, _ =>
          exact ⟨kids, rfl⟩
      | r :: rr =>
        simp only [effAt] at h
        have := ihk _ (r :: rr) suf ea (by simp) hsuf h
        obtain ⟨kid, hkid⟩ := this
        refine ⟨kid, ?_⟩
        have hcons : ((0 : Nat) :: (r :: rr)) ++ suf = 0 :: ((r :: rr) ++ suf) := rfl
        rw [hcons]
        simpa [effAt] using hkid
    | (j + 1) :: rest =>
      simp only [effAt] at h
      have := ihs _ (j :: rest) suf ea (by simp) hsuf h
      obtain ⟨kid, hkid⟩ := this
      refine ⟨kid, ?_⟩
      simpa [effAt] using hkid

/-- A root address' effective limit equals the root's own remaining limit. -/
theorem effAt_root (f : DeckF) : ∀ i : Nat, effAt none f [i] = ownAt f [i] := by
  induction f with
  | nil => intro i; rfl
  | node lim tk raw kids sib ihk ihs =>
    intro i
    match i with
    | 0 => simp [effAt, ownAt, minO_none]
    | j + 1 => simpa [effAt, ownAt] using ihs j

/-- Demo hierarchy from the spec's scenario: deck `A` (new-limit 3, no items
of its own) with children `A::B` and `A::C` (new-limit 2, 5 unseen items
each); nothing has been taken today. -/
def demoF : DeckF :=
  DeckF.node (some 3) 0 0
    (DeckF.node (some 2) 0 5 DeckF.nil
      (DeckF.node (some 2) 0 5 DeckF.nil DeckF.nil))
    DeckF.nil

/-- C1: for every deck in the hierarchy and every limit kind, the effective
remaining limit computed by the limit propagator is
`min(own remaining limit, parent's effective remaining limit)`, with a root
deck's effective limit equal to its own remaining limit; consequently a
deck's effective limit is at most its own remaining limit and at most the
effective limit of every ancestor (every nonempty strict ancestor address),
so a child deck never draws more than any ancestor permits. -/
theorem c1_effective_limit_clamped_by_ancestors (f : DeckF)
    (path anc suf : List Nat) (e : Option Nat)
    (hpath : path = anc ++ suf) (hanc : anc ≠ []) (hsuf : suf ≠ [])
    (he : effAt none f path = some e) :
    (∃ o, ownAt f path = some o ∧ leO e o) ∧
    (∀ ea, effAt none f anc = some ea → leO e ea) ∧
    (∀ g : DeckF, ∀ j : Nat, effAt none g [j] = ownAt g [j]) := by
  refine ⟨effAt_le_own f none path e he, ?_, fun g j => effAt_root g j⟩
  intro ea hea
  obtain ⟨kid, hkid⟩ := effAt_append f none anc suf ea hanc hsuf hea
  rw [hpath, hkid] at he
  exact effAt_le_parent kid ea suf e he

theorem c1_witness : leO (some 2) (some 3) :=
  (c1_effective_limit_clamped_by_ancestors demoF [0, 0] [0] [0] (some 2)
    rfl (by simp) (by simp) rfl).2.1 (some 3) rfl

/-- Deck forest annotated with each deck's effective remaining limit, the
output of the limit propagator. -/
inductive EffF : Type where
  | nil : EffF
  | node (eff : Option Nat) (raw : Nat) (kids : EffF) (sib : EffF) : EffF
deriving DecidableEq

/-- Modelled from the spec: `DeckLimitPropagator` (§4.1) as a whole-tree
pass: walks the hierarchy top-down computing every deck's effective
remaining limit `minO (own remaining limit) (parent's effective limit)`,
with parent context `none` at the roots. -/
def propagate : Option Nat → DeckF → EffF
  | _, .nil => .nil
  | p, .node lim tk raw kids sib =>
    let e := minO (remainingOf lim tk) p
    .node e raw (propagate e kids) (propagate p sib)

/-- The deck due tree: each deck annotated with its displayed count. -/
inductive CntF : Type where
  | nil : CntF
  | node (shown : Nat) (kids : CntF) (sib : CntF) : CntF
deriving DecidableEq

/-- Clamp a count by an optional limit; an unlimited deck passes the count
through unchanged. -/
def clampO : Option Nat → Nat → Nat
  | none, n => n
  | some l, n => min l n

/-- Sum of the displayed counts of the roots of a due forest. -/
def sumRoots : CntF → Nat
  | .nil => 0
  | .node n _ sib => n + sumRoots sib

/-- Modelled from the spec: `CountAggregator` (§4.2): leaves-to-root, a
deck's displayed count is `min(effective limit, own raw count + sum of the
children's displayed counts)`, clamped once per node. -/
def aggregate : EffF → CntF
  | .nil => .nil
  | .node e raw kids sib =>
    let ck := aggregate kids
    .node (clampO e (raw + sumRoots ck)) ck (aggregate sib)

/-- Pointwise comparison: every displayed count in the due forest is at
most the corresponding effective limit. -/
def shownLe : CntF → EffF → Prop
  | .nil, .nil => True
  | .node n ck cs, .node e _ ek es => leO (some n) e ∧ shownLe ck ek ∧ shownLe cs es
  | _, _ => False

theorem aggregate_le_eff (ef : EffF) : shownLe (aggregate ef) ef := by
  induction ef with
  | nil => trivial
  | node e raw kids sib ihk ihs =>
    refine ⟨?_, ihk, ihs⟩
    cases e with
    | none => trivial
    | some l => simpa [clampO, leO] using Nat.min_le_left l _

/-- C2: the aggregator computes each deck's displayed count bottom-up as
`min(effective limit, own raw count + sum of the children's displayed
counts)`, clamping once per node (so every displayed count is at most the
deck's effective limit); in particular, for deck `A` with new-limit 3 and
children `A::B`, `A::C` with new-limit 2 and 5 unseen items each, the
resulting due tree shows `A::B = 2`, `A::C = 2` and `A = 3` (not 4). -/
theorem c2_displayed_counts_clamped :
    aggregate (propagate none demoF) =
      CntF.node 3 (CntF.node 2 CntF.nil (CntF.node 2 CntF.nil CntF.nil)) CntF.nil ∧
    (∀ e raw kids sib,
      aggregate (EffF.node e raw kids sib) =
        CntF.node (clampO e (raw + sumRoots (aggregate kids)))
          (aggregate kids) (aggregate sib)) ∧
    (∀ ef : EffF, shownLe (aggregate ef) ef) := by
  refine ⟨by decide, fun e raw kids sib => rfl, fun ef => aggregate_le_eff ef⟩

/-- A reviewable item: its identifier and its sibling-group identifier
(the note it was generated from). -/
structure Item where
  id : Nat
  nid : Nat
deriving DecidableEq

/-- The four queue kinds, in the spec's priority order (§4.4). -/
inductive Kind : Type where
  | lrnNow
  | rev
  | new
  | lrnLater
deriving DecidableEq, Fintype

/-- Modelled from the spec: the `SchedulerSession` queue state (§3):
the four ordered queues of items, the `DeckProbeList` work-list of deck
identifiers still to probe, and the session generation counter. -/
structure QState where
  lrnNow : List Item
  rev : List Item
  new : List Item
  lrnLater : List Item
  probe : List Nat
  gen : Nat
deriving DecidableEq

def queueOf : Kind → QState → List Item
  | .lrnNow, s => s.lrnNow
  | .rev, s => s.rev
  | .new, s => s.new
  | .lrnLater, s => s.lrnLater

def setQueue : Kind → List Item → QState → QState
  | .lrnNow, q, s => { s with lrnNow := q }
  | .rev, q, s => { s with rev := q }
  | .new, q, s => { s with new := q }
  | .lrnLater, q, s => { s with lrnLater := q }

/-- Modelled from the spec: the probing loop inside `refill` (§4.3): pop
decks from the probe list in order; a deck that yields no directly-due
items is permanently dropped and probing continues; the first deck that
yields items stops the probing, returning that one deck's items and the
remaining probe list. -/
def refillLoop (g : Nat → List Item) : List Nat → List Item × List Nat
  | [] => ([], [])
  | d :: ds =>
    match g d with
    | [] => refillLoop g ds
    | i :: it => (i :: it, ds)

/-- Modelled from the spec: `QueueManager.refill(queueKind)` (§4.3): no-op
returning true when the queue is non-empty; otherwise probe decks lazily
via `refillLoop`, install the first non-empty yield as the queue, keep the
un-probed remainder of the probe list, and return true exactly when the
queue is non-empty after the call.  `due d k` is the storage collaborator's
`listDueItems` for the items directly owned by deck `d` of kind `k`. -/
def refill (due : Nat → Kind → List Item) (k : Kind) (s : QState) : QState × Bool :=
  match queueOf k s with
  | _ :: _ => (s, true)
  | [] =>
    let p := refillLoop (fun d => due d k) s.probe
    (setQueue k p.1 { s with probe := p.2 }, !p.1.isEmpty)

/-- Modelled from the spec: `QueueManager.consume(itemId)` (§4.3): removes
the item and every other queued item sharing its sibling-group identifier
from all four queues, unconditionally, touching neither the probe list nor
the generation counter. -/
def consume (x : Item) (s : QState) : QState :=
  { s with
    lrnNow := s.lrnNow.filter (fun i => i.nid != x.nid),
    rev := s.rev.filter (fun i => i.nid != x.nid),
    new := s.new.filter (fun i => i.nid != x.nid),
    lrnLater := s.lrnLater.filter (fun i => i.nid != x.nid) }

/-- Modelled from the spec: `QueueManager.invalidate()` (§4.3): clears all
four queues, resets the probe list to all descendants of the current study
scope, and bumps the session generation counter. -/
def invalidate (scopeDecks : List Nat) (s : QState) : QState :=
  { lrnNow := [], rev := [], new := [], lrnLater := [],
    probe := scopeDecks, gen := s.gen + 1 }

/-- Modelled from the spec: the `CardSelector` walk of `getNextItem()`
(§4.4) over a list of queue kinds: for each kind in priority order, first
compare the due tree's top-level count for that kind with zero and skip
the kind entirely when it is zero (the fallback optimization); otherwise
call `refill` and, if the queue is non-empty, return its front item
without removing it.  Also returns the resulting state and the number of
`refill` calls made. -/
def selectLoop (counts : Kind → Nat) (due : Nat → Kind → List Item) :
    List Kind → QState → Option Item × QState × Nat
  | [], s => (none, s, 0)
  | k :: ks, s =>
    if counts k = 0 then selectLoop counts due ks s
    else
      let r := refill due k s
      match queueOf k r.1 with
      | i :: _ => (some i, r.1, 1)
      | [] =>
        let t := selectLoop counts due ks r.1
        (t.1, t.2.1, t.2.2 + 1)

/-- Modelled from the spec: `getNextItem()` (§4.4): the selector walk over
the four kinds in priority order; `none` is the normal "nothing left to
study" sentinel. -/
def getNextItem (counts : Kind → Nat) (due : Nat → Kind → List Item)
    (s : QState) : Option Item × QState × Nat :=
  selectLoop counts due [Kind.lrnNow, Kind.rev, Kind.new, Kind.lrnLater] s

theorem queueOf_setQueue_self (k : Kind) (q : List Item) (s : QState) :
    queueOf k (setQueue k q s) = q := by
  cases k <;> rfl

theorem queueOf_setQueue_other (k k' : Kind) (q : List Item) (s : QState)
    (h : k' ≠ k) : queueOf k' (setQueue k q s) = queueOf k' s := by
  cases k <;> cases k' <;> first | rfl | exact absurd rfl h

theorem setQueue_probe (k : Kind) (q : List Item) (s : QState) :
    (setQueue k q s).probe = s.probe := by
  cases k <;> rfl

theorem setQueue_gen (k : Kind) (q : List Item) (s : QState) :
    (setQueue k q s).gen = s.gen := by
  cases k <;> rfl

theorem queueOf_probe_set (k : Kind) (s : QState) (p : List Nat) :
    queueOf k { s with probe := p } = queueOf k s := by
  cases k <;> rfl

/-- Restoring an empty queue and an empty probe list is the identity. -/
theorem setQueue_nil_probe_nil (k : Kind) (s : QState)
    (hq : queueOf k s = []) (hp : s.probe = []) :
    setQueue k [] { s with probe := [] } = s := by
  cases k <;> cases s <;> simp_all [setQueue, queueOf]

/-- Characterization of the probing loop: the probe list splits into a
block of dropped decks, each of which yields nothing, followed either by
nothing (queue stays empty, probe list exhausted) or by a first yielding
deck whose items become the queue while the remaining decks stay in the
probe list. -/
theorem refillLoop_chr (g : Nat → List Item) (l : List Nat) :
    ∃ dropped rest, l = dropped ++ rest ∧ (∀ d ∈ dropped, g d = []) ∧
      ((rest = [] ∧ refillLoop g l = ([], [])) ∨
       (∃ d ds, rest = d :: ds ∧ g d ≠ [] ∧ refillLoop g l = (g d, ds))) := by
  induction l with
  | nil => exact ⟨[], [], rfl, by simp, Or.inl ⟨rfl, rfl⟩⟩
  | cons d ds ih =>
    cases hg : g d with
    | nil =>
      obtain ⟨dr, re, hsplit, hdr, hres⟩ := ih
      refine ⟨d :: dr, re, by rw [hsplit]; rfl, ?_, ?_⟩
      · intro d' hd'
        rcases List.mem_cons.mp hd' with h | h
        · subst h; exact hg
        · exact hdr d' h
      · have hloop : refillLoop g (d :: ds) = refillLoop g ds := by
          simp [refillLoop, hg]
        rw [hloop]
        exact hres
    | cons i it =>
      refine ⟨[], d :: ds, rfl, by simp, Or.inr ⟨d, ds, rfl, by simp [hg], ?_⟩⟩
      simp [refillLoop, hg]

/-- If the loop yields no items it has exhausted the probe list. -/
theorem refillLoop_empty_probe (g : Nat → List Item) (l : List Nat)
    (h : (refillLoop g l).1 = []) : (refillLoop g l).2 = [] := by
  induction l with
  | nil => rfl
  | cons d ds ih =>
    cases hg : g d with
    | nil => simp only [refillLoop, hg] at h ⊢; exact ih h
    | cons i it => simp [refillLoop, hg] at h

/-- C3: `consume(x)` removes `x` and every other queued item sharing `x`'s
sibling-group identifier from all four queues, unconditionally, and
without triggering a full reset: the probe list and the generation counter
are untouched, and afterwards no queue contains any item of `x`'s sibling
group. -/
theorem c3_consume_removes_sibling_group (x : Item) (s : QState) :
    (∀ k : Kind, ∀ i ∈ queueOf k (consume x s), i.nid ≠ x.nid) ∧
    (consume x s).probe = s.probe ∧
    (consume x s).gen = s.gen := by
  refine ⟨?_, rfl, rfl⟩
  intro k i hi
  have hmem : i.nid != x.nid := by
    cases k <;>
      simpa [consume, queueOf] using (List.mem_filter.mp hi).2
  simpa using hmem

/-- C4: `refill(queueKind)` is a no-op (returning true) when the queue is
non-empty; otherwise it pops decks from the probe list in order, drops
every deck that yields nothing for the rest of the session, installs the
first non-empty yield as the queue and stops probing there (one deck's
worth at a time), and it returns true exactly when the queue is non-empty
after the call. -/
theorem c4_refill_lazy_probe (due : Nat → Kind → List Item) (k : Kind)
    (s : QState) :
    (∀ i t, queueOf k s = i :: t → refill due k s = (s, true)) ∧
    (queueOf k s = [] →
      ∃ dropped rest, s.probe = dropped ++ rest ∧
        (∀ d ∈ dropped, due d k = []) ∧
        ((rest = [] ∧ queueOf k (refill due k s).1 = [] ∧
            (refill due k s).1.probe = [] ∧ (refill due k s).2 = false) ∨
         (∃ d ds, rest = d :: ds ∧ due d k ≠ [] ∧
            queueOf k (refill due k s).1 = due d k ∧
            (refill due k s).1.probe = ds ∧ (refill due k s).2 = true))) ∧
    ((refill due k s).2 = true ↔ queueOf k (refill due k s).1 ≠ []) := by
  refine ⟨?_, ?_, ?_⟩
  · intro i t h
    simp [refill, h]
  · intro h
    obtain ⟨dropped, rest, hsplit, hdrop, hres⟩ :=
      refillLoop_chr (fun d => due d k) s.probe
    refine ⟨dropped, rest, hsplit, hdrop, ?_⟩
    have href : refill due k s =
        (setQueue k (refillLoop (fun d => due d k) s.probe).1
          { s with probe := (refillLoop (fun d => due d k) s.probe).2 },
         !(refillLoop (fun d => due d k) s.probe).1.isEmpty) := by
      simp [refill, h]
    rcases hres with ⟨hrest, hloop⟩ | ⟨d, ds, hrest, hne, hloop⟩
    · left
      refine ⟨hrest, ?_, ?_, ?_⟩
      · rw [href, hloop, queueOf_setQueue_self]
      · rw [href, hloop, setQueue_probe]
      · rw [href, hloop]; rfl
    · right
      refine ⟨d, ds, hrest, hne, ?_, ?_, ?_⟩
      · rw [href, hloop, queueOf_setQueue_self]
      · rw [href, hloop, setQueue_probe]
      · rw [href, hloop]
        simpa [List.isEmpty_iff] using hne
  · cases hq : queueOf k s with
    | cons i t =>
      simp [refill, hq]
    | nil =>
      have href : refill due k s =
          (setQueue k (refillLoop (fun d => due d k) s.probe).1
            { s with probe := (refillLoop (fun d => due d k) s.probe).2 },
           !(refillLoop (fun d => due d k) s.probe).1.isEmpty) := by
        simp [refill, hq]
      rw [href]
      simp only [queueOf_setQueue_self]
      cases hl : (refillLoop (fun d => due d k) s.probe).1 <;> simp [hl]

/-- A concrete queue state used to instantiate the claims. -/
def sDemo : QState :=
  { lrnNow := [], rev := [⟨7, 3⟩], new := [⟨1, 1⟩, ⟨2, 1⟩], lrnLater := [],
    probe := [5], gen := 4 }

/-- If some kind in the walk has a nonzero top-level count, the walk makes
at least one `refill` call. -/
theorem selectLoop_refills_pos (counts : Kind → Nat)
    (due : Nat → Kind → List Item) :
    ∀ (ks : List Kind) (s : QState),
      (∃ k ∈ ks, counts k ≠ 0) →
      1 ≤ (selectLoop counts due ks s).2.2 := by
  intro ks
  induction ks with
  | nil => intro s h; simp at h
  | cons k ks ih =>
    intro s h
    by_cases hk : counts k = 0
    · have hrest : ∃ k' ∈ ks, counts k' ≠ 0 := by
        obtain ⟨k', hk', hne⟩ := h
        rcases List.mem_cons.mp hk' with rfl | hmem
        · exact absurd hk hne
        · exact ⟨k', hmem, hne⟩
      simpa [selectLoop, hk] using ih s hrest
    · simp only [selectLoop, if_neg hk]
      cases hq : queueOf k (refill due k s).1 with
      | cons i t => simp
      | nil => simp

/-- C5 counterexample: the claim that after `invalidate()` the next
`getNextItem()` call triggers at least one `refill` fails when every
top-level count of the due tree is zero — the count-zero fallback of §4.4
then skips every kind, so zero `refill` calls are made. -/
theorem c5_counterexample :
    ¬ 1 ≤ (getNextItem (fun _ => 0) (fun _ _ => [])
            (invalidate [] sDemo)).2.2 := by
  decide

/-- C5 (amended): after any `invalidate()`, all four queues are empty, the
probe list equals the descendants of the current study scope, the
generation counter is strictly greater than before, and — provided at
least one top-level due-tree count is nonzero — the next `getNextItem()`
call triggers at least one `refill`.  (If every count is zero, the
count-zero fallback of §4.4 skips every refill.) -/
theorem c5_invalidate_resets (scopeDecks : List Nat) (s : QState)
    (counts : Kind → Nat) (due : Nat → Kind → List Item)
    (h : ∃ k : Kind, counts k ≠ 0) :
    (∀ k : Kind, queueOf k (invalidate scopeDecks s) = []) ∧
    (invalidate scopeDecks s).probe = scopeDecks ∧
    s.gen < (invalidate scopeDecks s).gen ∧
    1 ≤ (getNextItem counts due (invalidate scopeDecks s)).2.2 := by
  refine ⟨fun k => by cases k <;> rfl, rfl, Nat.lt_succ_self _, ?_⟩
  apply selectLoop_refills_pos
  obtain ⟨k, hk⟩ := h
  exact ⟨k, by cases k <;> simp, hk⟩

theorem c5_witness :
    1 ≤ (getNextItem (fun _ => 1) (fun _ _ => [])
          (invalidate [1, 2] sDemo)).2.2 :=
  (c5_invalidate_resets [1, 2] sDemo (fun _ => 1) (fun _ _ => [])
    ⟨Kind.lrnNow, by decide⟩).2.2.2

theorem refill_noop (due : Nat → Kind → List Item) (k : Kind) (s : QState)
    (i : Item) (t : List Item) (h : queueOf k s = i :: t) :
    refill due k s = (s, true) := by
  simp [refill, h]

/-- With an exhausted probe list, `refill` cannot change the state. -/
theorem refill_probe_nil (due : Nat → Kind → List Item) (k : Kind)
    (s : QState) (hp : s.probe = []) : (refill due k s).1 = s := by
  cases hq : queueOf k s with
  | cons i t => simp [refill, hq]
  | nil =>
    have : refill due k s =
        (setQueue k (refillLoop (fun d => due d k) s.probe).1
          { s with probe := (refillLoop (fun d => due d k) s.probe).2 },
         !(refillLoop (fun d => due d k) s.probe).1.isEmpty) := by
      simp [refill, hq]
    rw [this, hp]
    exact setQueue_nil_probe_nil k s hq hp

/-- If the queue is still empty after a `refill`, the probe list has been
exhausted. -/
theorem refill_empty_probe (due : Nat → Kind → List Item) (k : Kind)
    (s : QState) (h : queueOf k (refill due k s).1 = []) :
    (refill due k s).1.probe = [] := by
  cases hq : queueOf k s with
  | cons i t =>
    rw [refill_noop due k s i t hq] at h
    rw [hq] at h
    simp at h
  | nil =>
    have heq : refill due k s =
        (setQueue k (refillLoop (fun d => due d k) s.probe).1
          { s with probe := (refillLoop (fun d => due d k) s.probe).2 },
         !(refillLoop (fun d => due d k) s.probe).1.isEmpty) := by
      simp [refill, hq]
    rw [heq] at h ⊢
    rw [queueOf_setQueue_self] at h
    rw [setQueue_probe]
    exact refillLoop_empty_probe (fun d => due d k) s.probe h

/-- With an exhausted probe list, the selector walk cannot change the
state. -/
theorem selectLoop_probe_nil (counts : Kind → Nat)
    (due : Nat → Kind → List Item) :
    ∀ (ks : List Kind) (s : QState), s.probe = [] →
      (selectLoop counts due ks s).2.1 = s := by
  intro ks
  induction ks with
  | nil => intro s _; rfl
  | cons k ks ih =>
    intro s hp
    by_cases hk : counts k = 0
    · simpa [selectLoop, hk] using ih s hp
    · have hr : (refill due k s).1 = s := refill_probe_nil due k s hp
      simp only [selectLoop, if_neg hk]
      cases hq : queueOf k (refill due k s).1 with
      | cons i t => simpa using hr
      | nil =>
        simp only []
        rw [hr]
        exact ih s hp

/-- The selector walk is idempotent on its own output state: running it a
second time returns the same item. -/
theorem selectLoop_idem (counts : Kind → Nat)
    (due : Nat → Kind → List Item) :
    ∀ (ks : List Kind) (s : QState),
      (selectLoop counts due ks ((selectLoop counts due ks s).2.1)).1 =
        (selectLoop counts due ks s).1 := by
  intro ks
  induction ks with
  | nil => intro s; rfl
  | cons k ks ih =>
    intro s
    by_cases hk : counts k = 0
    · simp only [selectLoop, if_pos hk]
      exact ih s
    · simp only [selectLoop, if_neg hk]
      cases hq : queueOf k (refill due k s).1 with
      | cons i t =>
        simp only [hq]
        rw [refill_noop due k (refill due k s).1 i t hq]
        simp [hq]
      | nil =>
        simp only [hq]
        have hp : (refill due k s).1.probe = [] :=
          refill_empty_probe due k s hq
        have hstate :
            (selectLoop counts due ks (refill due k s).1).2.1 =
              (refill due k s).1 :=
          selectLoop_probe_nil counts due ks (refill due k s).1 hp
        simp only [hstate]
        rw [refill_probe_nil due k (refill due k s).1 hp]
        simp only [hq]

/-- C6: `getNextItem()` is idempotent between mutations: calling it twice
with no intervening answer or other mutation returns the same item both
times (it returns the front of the selected queue without removing it;
removal happens only on answer, via `consume`). -/
theorem c6_getNextItem_idempotent (counts : Kind → Nat)
    (due : Nat → Kind → List Item) (s : QState) :
    (getNextItem counts due ((getNextItem counts due s).2.1)).1 =
      (getNextItem counts due s).1 :=
  selectLoop_idem counts due [Kind.lrnNow, Kind.rev, Kind.new, Kind.lrnLater] s

/-- If every kind in the walk has a zero top-level count, the walk does
nothing at all. -/
theorem selectLoop_all_zero (counts : Kind → Nat)
    (due : Nat → Kind → List Item) :
    ∀ (ks : List Kind) (s : QState), (∀ k ∈ ks, counts k = 0) →
      selectLoop counts due ks s = (none, s, 0) := by
  intro ks
  induction ks with
  | nil => intro s _; rfl
  | cons k ks ih =>
    intro s h
    have hk : counts k = 0 := h k (by simp)
    have hrest : ∀ k' ∈ ks, counts k' = 0 := fun k' hk' => h k' (by simp [hk'])
    simpa [selectLoop, hk] using ih s hrest

/-- C7: when all four queues are empty and the due tree's top-level counts
are all zero, `getNextItem()` returns the explicit `none` sentinel (it is
a total function — having nothing left to study is a normal terminal
state, not a failure), leaves the state unchanged, and a repeated call
returns `none` again: nothing changes until a mutation changes the
counts. -/
theorem c7_none_is_normal_terminal (counts : Kind → Nat)
    (due : Nat → Kind → List Item) (s : QState)
    (hc : ∀ k : Kind, counts k = 0)
    (hq : ∀ k : Kind, queueOf k s = []) :
    getNextItem counts due s = (none, s, 0) ∧
    (getNextItem counts due ((getNextItem counts due s).2.1)).1 = none := by
  have h1 : getNextItem counts due s = (none, s, 0) :=
    selectLoop_all_zero counts due _ s (fun k _ => hc k)
  refine ⟨h1, ?_⟩
  rw [h1]
  show (getNextItem counts due s).1 = none
  rw [h1]

/-- An entirely empty session state. -/
def sEmpty : QState :=
  { lrnNow := [], rev := [], new := [], lrnLater := [], probe := [], gen := 0 }

theorem c7_witness :
    getNextItem (fun _ => 0) (fun _ _ => []) sEmpty = (none, sEmpty, 0) ∧
    (getNextItem (fun _ => 0) (fun _ _ => [])
      ((getNextItem (fun _ => 0) (fun _ _ => []) sEmpty).2.1)).1 = none :=
  c7_none_is_normal_terminal (fun _ => 0) (fun _ _ => []) sEmpty
    (fun _ => rfl) (fun k => by cases k <;> rfl)

/-- Modelled from the spec: the scheduler session (§3): the transient due
tree plus the queue state. -/
structure Session where
  tree : CntF
  qs : QState
deriving DecidableEq

/-- Modelled from the spec: `answer(itemId, grade)` (§6): invokes the
opaque `computeNextState`, persists its result to the storage map, then
calls `QueueManager.consume(itemId)`; it performs no full reset.  `α` is
the opaque type of persisted item states. -/
def answer {α : Type} (computeNextState : α → Nat → α) (store : Nat → α)
    (x : Item) (grade : Nat) (sess : Session) : (Nat → α) × Session :=
  let st := computeNextState (store x.id) grade
  (fun j => if j = x.id then st else store j,
   { sess with qs := consume x sess.qs })

/-- C8: `answer(itemId, grade)` invokes `computeNextState`, persists the
result via storage (only the answered item's stored state changes), then
calls `consume(itemId)`, and does not trigger a full reset: the due tree,
the probe list and the generation counter are left unchanged, with only
the answered item's sibling group filtered out of the queues. -/
theorem c8_answer_consumes_without_reset {α : Type}
    (computeNextState : α → Nat → α) (store : Nat → α) (x : Item)
    (grade : Nat) (sess : Session) :
    (answer computeNextState store x grade sess).1 x.id =
      computeNextState (store x.id) grade ∧
    (∀ j, j ≠ x.id →
      (answer computeNextState store x grade sess).1 j = store j) ∧
    (answer computeNextState store x grade sess).2.tree = sess.tree ∧
    (answer computeNextState store x grade sess).2.qs.probe =
      sess.qs.probe ∧
    (answer computeNextState store x grade sess).2.qs.gen = sess.qs.gen ∧
    (answer computeNextState store x grade sess).2.qs = consume x sess.qs ∧
    (∀ k : Kind, queueOf k (answer computeNextState store x grade sess).2.qs =
      (queueOf k sess.qs).filter (fun i => i.nid != x.nid)) := by
  refine ⟨by simp [answer], fun j hj => by simp [answer, hj], rfl, rfl, rfl,
    rfl, fun k => ?_⟩
  cases k <;> rfl

/-- Storage-side classification of an item: the four queue kinds plus the
suspended and buried states. -/
inductive Cls : Type where
  | lrnNow
  | rev
  | new
  | lrnLater
  | suspended
  | buried
deriving DecidableEq

def clsOfKind : Kind → Cls
  | .lrnNow => .lrnNow
  | .rev => .rev
  | .new => .new
  | .lrnLater => .lrnLater

/-- The strengthened queue invariant: every item sitting in a queue is
classified by storage exactly as that queue's kind and belongs to a deck
inside the study scope, and the probe list only holds in-scope decks. -/
def QInv (cls : Nat → Cls) (deckOf : Nat → Nat) (scope : List Nat)
    (s : QState) : Prop :=
  (∀ k : Kind, ∀ i ∈ queueOf k s,
    cls i.id = clsOfKind k ∧ deckOf i.id ∈ scope) ∧
  (∀ d ∈ s.probe, d ∈ scope)

/-- The storage collaborator's contract for `listDueItems`: a probed
in-scope deck only yields items of the requested kind that live in an
in-scope deck. -/
def GoodDue (cls : Nat → Cls) (deckOf : Nat → Nat) (scope : List Nat)
    (due : Nat → Kind → List Item) : Prop :=
  ∀ d k, ∀ i ∈ due d k, d ∈ scope →
    cls i.id = clsOfKind k ∧ deckOf i.id ∈ scope

/-- The claim's queue-membership invariant: an item identifier appears in
at most one of the four queues, and no queued item is suspended, buried,
or outside the currently selected study scope. -/
def ClaimInv (cls : Nat → Cls) (deckOf : Nat → Nat) (scope : List Nat)
    (s : QState) : Prop :=
  (∀ k1 k2 : Kind, ∀ i1 ∈ queueOf k1 s, ∀ i2 ∈ queueOf k2 s,
    i1.id = i2.id → k1 = k2) ∧
  (∀ k : Kind, ∀ i ∈ queueOf k s,
    cls i.id ≠ Cls.suspended ∧ cls i.id ≠ Cls.buried ∧ deckOf i.id ∈ scope)

theorem clsOfKind_injective (k1 k2 : Kind)
    (h : clsOfKind k1 = clsOfKind k2) : k1 = k2 := by
  cases k1 <;> cases k2 <;> simp_all [clsOfKind]

theorem clsOfKind_ne_suspended (k : Kind) : clsOfKind k ≠ Cls.suspended := by
  cases k <;> simp [clsOfKind]

theorem clsOfKind_ne_buried (k : Kind) : clsOfKind k ≠ Cls.buried := by
  cases k <;> simp [clsOfKind]

theorem qinv_claiminv (cls : Nat → Cls) (deckOf : Nat → Nat)
    (scope : List Nat) (s : QState) (h : QInv cls deckOf scope s) :
    ClaimInv cls deckOf scope s := by
  obtain ⟨hq, _⟩ := h
  constructor
  · intro k1 k2 i1 h1 i2 h2 hid
    apply clsOfKind_injective
    rw [← (hq k1 i1 h1).1, ← (hq k2 i2 h2).1, hid]
  · intro k i hi
    obtain ⟨hcls, hdeck⟩ := hq k i hi
    exact ⟨hcls ▸ clsOfKind_ne_suspended k, hcls ▸ clsOfKind_ne_buried k, hdeck⟩

theorem qinv_refill (cls : Nat → Cls) (deckOf : Nat → Nat)
    (scope : List Nat) (due : Nat → Kind → List Item) (k : Kind)
    (s : QState) (hdue : GoodDue cls deckOf scope due)
    (hs : QInv cls deckOf scope s) :
    QInv cls deckOf scope (refill due k s).1 := by
  obtain ⟨hq, hp⟩ := hs
  cases hqk : queueOf k s with
  | cons i t =>
    rw [refill_noop due k s i t hqk]
    exact ⟨hq, hp⟩
  | nil =>
    have heq : refill due k s =
        (setQueue k (refillLoop (fun d => due d k) s.probe).1
          { s with probe := (refillLoop (fun d => due d k) s.probe).2 },
         !(refillLoop (fun d => due d k) s.probe).1.isEmpty) := by
      simp [refill, hqk]
    rw [heq]
    obtain ⟨dropped, rest, hsplit, hdrop, hres⟩ :=
      refillLoop_chr (fun d => due d k) s.probe
    rcases hres with ⟨hrest, hloop⟩ | ⟨d, ds, hrest, hne, hloop⟩
    · rw [hloop]
      constructor
      · intro k' i hi
        by_cases hk' : k' = k
        · subst hk'; rw [queueOf_setQueue_self] at hi; cases hi
        · rw [queueOf_setQueue_other k k' _ _ hk', queueOf_probe_set] at hi
          exact hq k' i hi
      · intro d hd
        rw [setQueue_probe] at hd
        cases hd
    · rw [hloop]
      have hdscope : d ∈ scope := by
        apply hp
        rw [hsplit, hrest]
        simp
      constructor
      · intro k' i hi
        by_cases hk' : k' = k
        · subst hk'
          rw [queueOf_setQueue_self] at hi
          exact hdue d _ i hi hdscope
        · rw [queueOf_setQueue_other k k' _ _ hk', queueOf_probe_set] at hi
          exact hq k' i hi
      · intro d' hd'
        rw [setQueue_probe] at hd'
        apply hp
        rw [hsplit, hrest]
        simp only [List.mem_append, List.mem_cons] at hd' ⊢
        exact Or.inr (Or.inr hd')

theorem qinv_consume (cls : Nat → Cls) (deckOf : Nat → Nat)
    (scope : List Nat) (x : Item) (s : QState)
    (hs : QInv cls deckOf scope s) :
    QInv cls deckOf scope (consume x s) := by
  obtain ⟨hq, hp⟩ := hs
  constructor
  · intro k i hi
    apply hq k i
    cases k <;> exact (List.mem_filter.mp hi).1
  · exact hp

theorem qinv_invalidate (cls : Nat → Cls) (deckOf : Nat → Nat)
    (scope : List Nat) (s : QState) :
    QInv cls deckOf scope (invalidate scope s) := by
  constructor
  · intro k i hi
    cases k <;> cases hi
  · intro d hd
    exact hd

theorem qinv_selectLoop (cls : Nat → Cls) (deckOf : Nat → Nat)
    (scope : List Nat) (counts : Kind → Nat)
    (due : Nat → Kind → List Item)
    (hdue : GoodDue cls deckOf scope due) :
    ∀ (ks : List Kind) (s : QState), QInv cls deckOf scope s →
      QInv cls deckOf scope (selectLoop counts due ks s).2.1 := by
  intro ks
  induction ks with
  | nil => intro s hs; exact hs
  | cons k ks ih =>
    intro s hs
    by_cases hk : counts k = 0
    · simpa [selectLoop, hk] using ih s hs
    · have hr : QInv cls deckOf scope (refill due k s).1 :=
        qinv_refill cls deckOf scope due k s hdue hs
      simp only [selectLoop, if_neg hk]
      cases hq : queueOf k (refill due k s).1 with
      | cons i t => simpa using hr
      | nil =>
        simp only []
        exact ih (refill due k s).1 hr

/-- C9: the queue-membership invariant — an item identifier appears in at
most one of the four queues, and never appears in any queue if it is
suspended, buried, or not a descendant of the selected study scope — holds
in every state satisfying the strengthened invariant `QInv`, and `QInv`
(hence the claimed invariant) is preserved by `refill`, `consume`,
`invalidate`, `getNextItem` and `answer`, assuming storage's
`listDueItems` honours its contract `GoodDue`. -/
theorem c9_queue_membership_invariant (cls : Nat → Cls)
    (deckOf : Nat → Nat) (scope : List Nat) (counts : Kind → Nat)
    (due : Nat → Kind → List Item) (k : Kind) (x : Item) {α : Type}
    (computeNextState : α → Nat → α) (store : Nat → α) (grade : Nat)
    (sess : Session) (hdue : GoodDue cls deckOf scope due)
    (hs : QInv cls deckOf scope sess.qs) :
    ClaimInv cls deckOf scope sess.qs ∧
    (QInv cls deckOf scope (refill due k sess.qs).1 ∧
      ClaimInv cls deckOf scope (refill due k sess.qs).1) ∧
    (QInv cls deckOf scope (consume x sess.qs) ∧
      ClaimInv cls deckOf scope (consume x sess.qs)) ∧
    (QInv cls deckOf scope (invalidate scope sess.qs) ∧
      ClaimInv cls deckOf scope (invalidate scope sess.qs)) ∧
    (QInv cls deckOf scope (getNextItem counts due sess.qs).2.1 ∧
      ClaimInv cls deckOf scope (getNextItem counts due sess.qs).2.1) ∧
    (QInv cls deckOf scope
        (answer computeNextState store x grade sess).2.qs ∧
      ClaimInv cls deckOf scope
        (answer computeNextState store x grade sess).2.qs) := by
  have h1 := qinv_refill cls deckOf scope due k sess.qs hdue hs
  have h2 := qinv_consume cls deckOf scope x sess.qs hs
  have h3 := qinv_invalidate cls deckOf scope sess.qs
  have h4 := qinv_selectLoop cls deckOf scope counts due hdue
    [Kind.lrnNow, Kind.rev, Kind.new, Kind.lrnLater] sess.qs hs
  have h5 : QInv cls deckOf scope
      (answer computeNextState store x grade sess).2.qs := h2
  exact ⟨qinv_claiminv _ _ _ _ hs,
    ⟨h1, qinv_claiminv _ _ _ _ h1⟩,
    ⟨h2, qinv_claiminv _ _ _ _ h2⟩,
    ⟨h3, qinv_claiminv _ _ _ _ h3⟩,
    ⟨h4, qinv_claiminv _ _ _ _ h4⟩,
    ⟨h5, qinv_claiminv _ _ _ _ h5⟩⟩

/-- Concrete instance data for the invariant claim: one in-scope deck `0`
holding one new item. -/
def clsDemo : Nat → Cls := fun _ => Cls.new

def deckDemo : Nat → Nat := fun _ => 0

def sessDemo : Session :=
  { tree := CntF.nil,
    qs := { lrnNow := [], rev := [], new := [⟨1, 1⟩], lrnLater := [],
            probe := [0], gen := 0 } }

theorem c9_witness :
    ClaimInv clsDemo deckDemo [0] sessDemo.qs ∧
    ClaimInv clsDemo deckDemo [0] (consume ⟨1, 1⟩ sessDemo.qs) :=
  have h := c9_queue_membership_invariant clsDemo deckDemo [0]
    (fun _ => 0) (fun _ _ => []) Kind.new ⟨1, 1⟩ (fun a _ => a)
    (fun _ => 0) 2 sessDemo (fun d k i hi _ => nomatch hi)
    (by constructor
        · intro k i hi
          cases k <;> simp_all [queueOf, sessDemo, clsDemo, clsOfKind, deckDemo]
        · intro d hd
          simpa [sessDemo] using hd)
  ⟨h.1, h.2.2.1.2⟩

end AnkiSched
